import Mathlib

/-!
Verification of the media-pipeline job executor (`src/api/tasks.py`,
`src/api/serializers.py`, `src/api/models.py`).

The Python code is shallowly embedded as follows.

* `Job` mirrors the Django `Job` model fields that the executor reads and
  writes (`id`, `input_path`, `status`, `progress`, `outputs`, `error`,
  `pipeline`).  Timestamps are omitted: no claim mentions them.
* `update` embeds the status publisher `_update`.  Each call to the Python
  function persists the record; here the returned `Job` is the persisted
  snapshot, and the executor keeps the list of all snapshots in order.
* The effectful collaborators of `process_media` are gathered in `Env`:
  the outcome of `_maybe_download_from_s3(job.input_path)` (filesystem and
  S3 access), the result of `guess_kind(job.input_path)` (the `mimetypes`
  table), `Path(job.input_path).stem`, the outcome of each external
  tool/library invocation inside a step handler (PIL, ffmpeg, the S3
  upload), and whether the `unlink` in the `finally` block succeeds.
  Everything else — control flow, dispatch, progress arithmetic, output
  descriptors, error capture — is translated directly from the source.
* The float arithmetic of `_progress_for_step` is embedded twice.
  `_progress_for_step_ieee` is the bit-faithful model: each of `/`, `*`,
  `+` is a correctly rounded IEEE binary64 operation (round to nearest,
  ties to even), exactly CPython's float semantics, and the final `int()`
  truncates the resulting dyadic rational toward zero.
  `_progress_for_step` is the exact-real abstraction of the same formula
  (truncation of `10 + 85 * idx / total`); the executor-level claims use
  it for the structural properties of the published checkpoints.  The two
  functions first disagree at `total = 85` (e.g. `idx = 49`: the double
  computation yields 58 where exact arithmetic yields 59, see claim C5).
* Python exceptions are modeled with `Except` / `Option` values; an
  exception that escapes `process_media` is recorded in `RunResult.raised`.
-/

namespace MediaPipeline

/-- Job.Status from `src/api/models.py` (Django TextChoices). -/
inductive Status where
  | PENDING
  | STARTED
  | SUCCESS
  | FAILURE
deriving DecidableEq, Repr

/-- Result of `guess_kind` in `src/api/utils.py`: image, video or other. -/
inductive Kind where
  | image
  | video
  | other
deriving DecidableEq, Repr

/-- One output descriptor, e.g. `{"type": "thumbnail", "s3_key": "outputs/x_thumb.jpg"}`. -/
structure Output where
  type : String
  s3_key : String
deriving DecidableEq, Repr

/-- The fields of the `Job` record (`src/api/models.py`) that the executor
reads and writes.  `progress` is the stored percentage. -/
structure Job where
  id : String
  input_path : String
  status : Status
  progress : ℤ
  outputs : List Output
  error : String
  pipeline : List String
deriving DecidableEq, Repr

/-- Embedding of `_update` in `src/api/tasks.py`.  `if status:` is Python
truthiness: a `Status` enum value is a nonempty string, hence truthy, so
the `Option` faithfully captures passing the argument or leaving it `None`.
`if progress is not None:` clamps with `max(0, min(100, int(progress)))`.
`if outputs_append:` is falsy both for `None` and for an empty list;
otherwise the list extends `job.outputs or []`. -/
def update (job : Job) (status : Option Status) (progress : Option ℤ)
    (error : Option String) (outputs_append : Option (List Output)) : Job :=
  let job1 := match status with
    | some s => { job with status := s }
    | none => job
  let job2 := match progress with
    | some p => { job1 with progress := max 0 (min 100 p) }
    | none => job1
  let job3 := match error with
    | some e => { job2 with error := e }
    | none => job2
  match outputs_append with
  | some outs => if outs.isEmpty then job3 else { job3 with outputs := job3.outputs ++ outs }
  | none => job3

/-- Exact-real abstraction of `_progress_for_step` in `src/api/tasks.py`:
`int(start + (end - start) * (idx / total))` with `start, end = 10.0, 95.0`,
computed in exact arithmetic.  The rational `10 + 85 * idx / total` equals
`(10 * total + 85 * idx) / total`, and Python `int` truncates toward zero,
which is `Int.tdiv` for a positive divisor.  The source computes in IEEE
doubles — that computation is embedded bit-faithfully as
`_progress_for_step_ieee` below, and first deviates from this exact value
at `total = 85`; this abstraction serves the executor-level claims about
which checkpoints are published, their order, monotonicity and bounds. -/
def _progress_for_step (idx total : ℤ) : ℤ :=
  if total ≤ 0 then 100
  else Int.tdiv (10 * total + 85 * idx) total

/-- Truncation toward zero of a rational, the meaning of Python `int()`
applied to a real number.  Used to state that `_progress_for_step` is the
truncated linear interpolation of the specification. -/
def ratTrunc (q : ℚ) : ℤ := if q < 0 then ⌈q⌉ else ⌊q⌋

/-- Python string slicing `s[:n]`, used for `err[:4000]`. -/
def pyTake (s : String) (n : ℕ) : String := String.mk (s.data.take n)

/-- Fuel-driven floor of the base-2 logarithm (`ilog2 n = ⌊log2 n⌋` for
`n ≥ 1`): the fuel starts at `n` and strictly exceeds the recursion depth
`⌊log2 n⌋`, so the cap is never hit. -/
def ilog2Aux : ℕ → ℕ → ℕ
  | 0, _ => 0
  | fuel + 1, n => if n ≤ 1 then 0 else ilog2Aux fuel (n / 2) + 1

/-- Floor of the base-2 logarithm of a natural number (0 for 0 and 1). -/
def ilog2 (n : ℕ) : ℕ := ilog2Aux n n

/-- Decides `2 ^ e ≤ a / b` for positive `a`, `b` and an integer exponent
`e`, by clearing denominators on either side of zero. -/
def pow2le (a b e : ℤ) : Bool :=
  if 0 ≤ e then decide (b * 2 ^ e.toNat ≤ a) else decide (b ≤ a * 2 ^ (-e).toNat)

/-- Binade of a positive rational: `dlog2 a b = ⌊log2 (a / b)⌋` for
`a, b > 0`.  With `la = ⌊log2 a⌋` and `lb = ⌊log2 b⌋` the quotient lies in
`(2 ^ (la - lb - 1), 2 ^ (la - lb + 1))`, so the floor is `la - lb` when
`2 ^ (la - lb) ≤ a / b` and `la - lb - 1` otherwise. -/
def dlog2 (a b : ℤ) : ℤ :=
  let c : ℤ := (ilog2 a.natAbs : ℤ) - (ilog2 b.natAbs : ℤ)
  if pow2le a b c then c else c - 1

/-- Round the rational `num / den` (`den > 0`) to the nearest integer,
ties to even: with floor quotient `q` and remainder `r`, the fraction part
is `r / den`, below a half keeps `q`, above a half takes `q + 1`, and an
exact half goes to the even neighbour. -/
def rndInt (num den : ℤ) : ℤ :=
  let q := num / den
  let r := num % den
  if 2 * r < den then q
  else if den < 2 * r then q + 1
  else if q % 2 = 0 then q else q + 1

/-- A dyadic rational `m / 2 ^ k`: every finite IEEE binary64 value has
this form, and it is the result type of the correctly rounded operations
below. -/
structure Dyadic where
  m : ℤ
  k : ℕ
deriving DecidableEq, Repr

/-- Round the positive rational `a / b` to the nearest IEEE binary64
value (round to nearest, ties to even): in the binade `e = ⌊log2 (a/b)⌋`
the representable doubles are the multiples of `2 ^ (e - 52)`, except
below `2 ^ (-1022)` where the subnormal spacing is fixed at `2 ^ (-1074)`;
the value is rounded to the nearest such multiple (a carry into the next
binade stays representable).  Magnitudes beyond the binary64 range
(`≥ 2 ^ 1024`, where CPython raises OverflowError instead of producing a
float) do not occur in this program's progress computation and are
returned rounded rather than as an overflow. -/
def roundPos (a b : ℤ) : Dyadic :=
  let e := dlog2 a b
  let g := max (e - 52) (-1074)
  if 0 ≤ g then ⟨rndInt a (b * 2 ^ g.toNat) * 2 ^ g.toNat, 0⟩
  else ⟨rndInt (a * 2 ^ (-g).toNat) b, (-g).toNat⟩

/-- Nearest IEEE binary64 value to the rational `a / b`: zero maps to
zero, a negative value is rounded by symmetry, a positive one by
`roundPos`.  (`b ≤ 0` is mapped to zero for totality; every call below
passes a positive denominator.) -/
def roundDouble (a b : ℤ) : Dyadic :=
  if a = 0 ∨ b ≤ 0 then ⟨0, 0⟩
  else if a < 0 then ⟨-(roundPos (-a) b).m, (roundPos (-a) b).k⟩
  else roundPos a b

/-- Python's int true division `i / t`, which produces the correctly
rounded double of the exact quotient (CPython computes this exactly even
for integers beyond 2^53).  The fraction is reduced by the gcd first,
which leaves its value — and hence the rounding — unchanged. -/
def fdiv (i t : ℤ) : Dyadic :=
  let g := Int.gcd i t
  if g = 0 then ⟨0, 0⟩ else roundDouble (i / (g : ℤ)) (t / (g : ℤ))

/-- Multiplication of a double by the exact small constant `c`
(`85.0 * x` in the source): IEEE multiplication is the correctly rounded
exact product `c * m / 2 ^ k`. -/
def fmul (c : ℤ) (x : Dyadic) : Dyadic := roundDouble (c * x.m) (2 ^ x.k)

/-- Addition of the exact small constant `c` to a double (`10.0 + x` in
the source): IEEE addition is the correctly rounded exact sum
`(c * 2 ^ k + m) / 2 ^ k`. -/
def fadd (c : ℤ) (x : Dyadic) : Dyadic := roundDouble (c * 2 ^ x.k + x.m) (2 ^ x.k)

/-- Python `int()` applied to a (finite) double: truncation of the dyadic
rational `m / 2 ^ k` toward zero. -/
def dyadicTrunc (x : Dyadic) : ℤ := Int.tdiv x.m (2 ^ x.k)

/-- Bit-faithful embedding of `_progress_for_step` in `src/api/tasks.py`:
`int(start + (end - start) * (idx / total))` with
`start, end = 10.0, 95.0`, where the division, the multiplication by
`85.0` and the addition of `10.0` are each correctly rounded IEEE
binary64 operations (round to nearest, ties to even) — exactly CPython's
float semantics — and `int()` truncates the final double toward zero. -/
def _progress_for_step_ieee (idx total : ℤ) : ℤ :=
  if total ≤ 0 then 100
  else dyadicTrunc (fadd 10 (fmul 85 (fdiv idx total)))

/-- Descriptor returned by `_step_thumbnail_image`: the artifact is written
and uploaded at key `outputs/<base_stem>_thumb.jpg`. -/
def _step_thumbnail_image (base_stem : String) : Output :=
  { type := "thumbnail", s3_key := "outputs/" ++ base_stem ++ "_thumb.jpg" }

/-- Descriptor returned by `_step_watermark_image`: key `outputs/<base_stem>_wm.jpg`. -/
def _step_watermark_image (base_stem : String) : Output :=
  { type := "watermark", s3_key := "outputs/" ++ base_stem ++ "_wm.jpg" }

/-- Descriptor returned by `_step_transcode_720p_video`: key `outputs/<base_stem>_720p.mp4`. -/
def _step_transcode_720p_video (base_stem : String) : Output :=
  { type := "video_720p", s3_key := "outputs/" ++ base_stem ++ "_720p.mp4" }

/-- Descriptor returned by `_step_hls_720p_video`: the playlist key
`outputs/hls/<base_stem>/index.m3u8`. -/
def _step_hls_720p_video (base_stem : String) : Output :=
  { type := "hls_720p", s3_key := "outputs/hls/" ++ base_stem ++ "/index.m3u8" }

/-- Environment of one `process_media` execution: the outcomes of its
effectful collaborators.

* `resolve` — outcome of `_maybe_download_from_s3(job.input_path)`:
  `Except.ok (local_path, is_temp)` on success, `Except.error msg` when the
  S3 download raises.
* `kind` — result of `guess_kind(job.input_path)`.
* `stem` — `Path(job.input_path).stem`.
* `toolError i` — `some msg` when the step handler executed at 1-based
  pipeline position `i` raises (PIL decode error, ffmpeg non-zero exit with
  captured stderr, upload failure …), `none` when the handler returns.
  For a `CalledProcessError` the source derives `msg` from the captured
  stderr; for any other exception from `str(e)`; both are then truncated
  the same way, so a single message string models either branch.
* `unlinkOk` — whether `input_abs.unlink(missing_ok=True)` in the
  `finally` block succeeds (its failure is swallowed by `except: pass`). -/
structure Env where
  resolve : Except String (String × Bool)
  kind : Kind
  stem : String
  toolError : ℕ → Option String
  unlinkOk : Bool

/-- Outcome of one iteration body of the step loop for the step at 1-based
position `i`: the step is skipped as kind-inapplicable (`continue`),
produces a descriptor, or raises. -/
inductive StepEval where
  | skipped
  | produced (out : Output)
  | raised (msg : String)
deriving DecidableEq, Repr

/-- The step dispatch of `process_media` (lines 185–210 of
`src/api/tasks.py`): each known step checks the classified kind and either
`continue`s, runs its handler (which may raise, `Env.toolError`), or — for
an unknown name — raises `RuntimeError(f"Unsupported step: {step}")`. -/
def evalStep (env : Env) (i : ℕ) (step : String) : StepEval :=
  if step = "thumbnail" then
    if env.kind ≠ Kind.image then StepEval.skipped
    else match env.toolError i with
      | some msg => StepEval.raised msg
      | none => StepEval.produced (_step_thumbnail_image env.stem)
  else if step = "watermark" then
    if env.kind ≠ Kind.image then StepEval.skipped
    else match env.toolError i with
      | some msg => StepEval.raised msg
      | none => StepEval.produced (_step_watermark_image env.stem)
  else if step = "transcode_720p" then
    if env.kind ≠ Kind.video then StepEval.skipped
    else match env.toolError i with
      | some msg => StepEval.raised msg
      | none => StepEval.produced (_step_transcode_720p_video env.stem)
  else if step = "hls_720p" then
    if env.kind ≠ Kind.video then StepEval.skipped
    else match env.toolError i with
      | some msg => StepEval.raised msg
      | none => StepEval.produced (_step_hls_720p_video env.stem)
  else StepEval.raised ("Unsupported step: " ++ step)

/-- Result of the `for idx, step in enumerate(pipeline, start=1)` loop:
the job after the last persisted update inside the loop, the snapshots
persisted by the loop in order, the accumulated `outputs` list, the
exception message if an iteration raised, and the number of iterations
entered. -/
structure LoopResult where
  job : Job
  snaps : List Job
  outputs : List Output
  err : Option String
  entered : ℕ
deriving Repr

/-- The step loop of `process_media`: before each step it persists the
pre-step checkpoint `_progress_for_step(idx - 1, total)`; a skipped step
`continue`s (no post-step update); an executed step appends its descriptor
and persists the post-step checkpoint `_progress_for_step(idx, total)`;
a raising step aborts the loop. -/
def runSteps (env : Env) (total : ℤ) : List String → ℕ → Job → LoopResult
  | [], _, job => ⟨job, [], [], none, 0⟩
  | step :: rest, i, job =>
    let j1 := update job none (some (_progress_for_step ((i : ℤ) - 1) total)) none none
    match evalStep env i step with
    | StepEval.skipped =>
      let r := runSteps env total rest (i + 1) j1
      ⟨r.job, j1 :: r.snaps, r.outputs, r.err, r.entered + 1⟩
    | StepEval.raised msg => ⟨j1, [j1], [], some msg, 1⟩
    | StepEval.produced o =>
      let j2 := update j1 none (some (_progress_for_step (i : ℤ) total)) none none
      let r := runSteps env total rest (i + 1) j2
      ⟨r.job, j1 :: j2 :: r.snaps, o :: r.outputs, r.err, r.entered + 1⟩

/-- Result of one `process_media` execution: the final job record, every
persisted snapshot in order, the exception that escaped the task (the
`except` handlers re-`raise`), whether the resolver returned a temporary
file, whether that file was deleted, and how many loop iterations ran. -/
structure RunResult where
  job : Job
  snaps : List Job
  raised : Option String
  tempCreated : Bool
  tempDeleted : Bool
  entered : ℕ
deriving Repr

/-- The `try … except … finally` part of `process_media` (lines 180–229):
run the loop; on success persist `SUCCESS`, progress 100, and append the
accumulated outputs in that single update; on a raising step persist
`FAILURE`, progress 100 and the message truncated to 4000 characters, then
re-raise.  The `finally` block deletes the temporary file when `is_temp`,
swallowing a deletion failure. -/
def runPipeline (env : Env) (j1 : Job) (is_temp : Bool) (pipeline : List String) : RunResult :=
  let total := (pipeline.length : ℤ)
  let r := runSteps env total pipeline 1 j1
  match r.err with
  | none =>
    let jF := update r.job (some Status.SUCCESS) (some 100) none (some r.outputs)
    ⟨jF, r.snaps ++ [jF], none, is_temp, is_temp && env.unlinkOk, r.entered⟩
  | some msg =>
    let jF := update r.job (some Status.FAILURE) (some 100) (some (pyTake msg 4000)) none
    ⟨jF, r.snaps ++ [jF], some msg, is_temp, is_temp && env.unlinkOk, r.entered⟩

/-- Embedding of the task body `process_media` (`src/api/tasks.py`,
lines 155–229), preserving its control flow:

1. persist `STARTED`, progress 5;
2. call `_maybe_download_from_s3` — NOTE: this happens before the
   `try` block, so when it raises the exception propagates with no
   further update and no cleanup;
3. default an empty pipeline from the kind; for kind `other` persist
   `FAILURE` with "Unsupported file type; no pipeline." and `return` —
   NOTE: this `return` is also before the `try`/`finally`, so a temporary
   file is not deleted on this path;
4. otherwise run the `try`/`except`/`finally` over the step loop. -/
def process_media (env : Env) (job0 : Job) : RunResult :=
  let j1 := update job0 (some Status.STARTED) (some 5) none none
  match env.resolve with
  | Except.error msg =>
    ⟨j1, [j1], some msg, false, false, 0⟩
  | Except.ok pr =>
    let is_temp := pr.2
    if job0.pipeline = [] then
      match env.kind with
      | Kind.image =>
        let r := runPipeline env j1 is_temp ["thumbnail"]
        ⟨r.job, j1 :: r.snaps, r.raised, r.tempCreated, r.tempDeleted, r.entered⟩
      | Kind.video =>
        let r := runPipeline env j1 is_temp ["transcode_720p"]
        ⟨r.job, j1 :: r.snaps, r.raised, r.tempCreated, r.tempDeleted, r.entered⟩
      | Kind.other =>
        let j2 := update j1 (some Status.FAILURE) (some 100)
          (some "Unsupported file type; no pipeline.") none
        ⟨j2, [j1, j2], none, is_temp, false, 0⟩
    else
      let r := runPipeline env j1 is_temp job0.pipeline
      ⟨r.job, j1 :: r.snaps, r.raised, r.tempCreated, r.tempDeleted, r.entered⟩

/-- The pipeline the loop actually iterates: the stored one, or the
default selected from the classified kind when it is empty (`[]` for kind
`other`, where the executor instead fails early). -/
def effPipeline (kind : Kind) (pl : List String) : List String :=
  if pl = [] then
    match kind with
    | Kind.image => ["thumbnail"]
    | Kind.video => ["transcode_720p"]
    | Kind.other => []
  else pl

/-- Whether a step runs (rather than being skipped) for a given classified
kind, per the dispatch in `process_media`. -/
def stepApplicable (step : String) (kind : Kind) : Bool :=
  (step = "thumbnail" && kind = Kind.image) ||
  (step = "watermark" && kind = Kind.image) ||
  (step = "transcode_720p" && kind = Kind.video) ||
  (step = "hls_720p" && kind = Kind.video)

/-- The descriptor a known applicable step produces, keyed by the input
reference's filename stem. -/
def stepDescriptor (step : String) (stem : String) : Output :=
  if step = "thumbnail" then _step_thumbnail_image stem
  else if step = "watermark" then _step_watermark_image stem
  else if step = "transcode_720p" then _step_transcode_720p_video stem
  else if step = "hls_720p" then _step_hls_720p_video stem
  else { type := "", s3_key := "" }

/-- ALLOWED_STEPS from `src/api/serializers.py`. -/
def ALLOWED_STEPS : List String := ["thumbnail", "watermark", "transcode_720p", "hls_720p"]

/-- The de-duplication loop of `validate_pipeline`: walk the list with a
`seen` set, keeping the first occurrence of each name. -/
def dedupKeepFirst : List String → List String → List String
  | [], _ => []
  | s :: rest, seen =>
    if s ∈ seen then dedupKeepFirst rest seen
    else s :: dedupKeepFirst rest (s :: seen)

/-- Embedding of `JobFromKeyRequestSerializer.validate_pipeline`
(`src/api/serializers.py`): an empty value is returned unchanged; any step
outside `ALLOWED_STEPS` raises a `ValidationError` (modeled as
`Except.error`; the message shape is approximated, no claim inspects it);
otherwise duplicates are removed keeping first occurrences.  In the view
(`CreateJobFromKeyView.post`) this runs inside `is_valid(raise_exception=True)`
before `Job.objects.create`, so a rejected request creates no job. -/
def validate_pipeline (value : List String) : Except String (List String) :=
  if value = [] then Except.ok value
  else
    let bad := value.filter (fun s => !(ALLOWED_STEPS.contains s))
    if bad = [] then Except.ok (dedupKeepFirst value [])
    else Except.error ("Unsupported steps: " ++ String.intercalate ", " bad)

/-! ### Lemmas about the status publisher `update` -/

theorem update_id (j : Job) (st : Option Status) (p : Option ℤ) (e : Option String)
    (oa : Option (List Output)) : (update j st p e oa).id = j.id := by
  rcases st with _ | s <;> rcases p with _ | p <;> rcases e with _ | e <;>
    rcases oa with _ | oa <;> simp only [update] <;> split <;> rfl

theorem update_input_path (j : Job) (st : Option Status) (p : Option ℤ) (e : Option String)
    (oa : Option (List Output)) : (update j st p e oa).input_path = j.input_path := by
  rcases st with _ | s <;> rcases p with _ | p <;> rcases e with _ | e <;>
    rcases oa with _ | oa <;> simp only [update] <;> split <;> rfl

theorem update_pipeline (j : Job) (st : Option Status) (p : Option ℤ) (e : Option String)
    (oa : Option (List Output)) : (update j st p e oa).pipeline = j.pipeline := by
  rcases st with _ | s <;> rcases p with _ | p <;> rcases e with _ | e <;>
    rcases oa with _ | oa <;> simp only [update] <;> split <;> rfl

theorem update_status_some (j : Job) (s : Status) (p : Option ℤ) (e : Option String)
    (oa : Option (List Output)) : (update j (some s) p e oa).status = s := by
  rcases p with _ | p <;> rcases e with _ | e <;>
    rcases oa with _ | oa <;> simp only [update] <;> split <;> rfl

theorem update_status_none (j : Job) (p : Option ℤ) (e : Option String)
    (oa : Option (List Output)) : (update j none p e oa).status = j.status := by
  rcases p with _ | p <;> rcases e with _ | e <;>
    rcases oa with _ | oa <;> simp only [update] <;> split <;> rfl

theorem update_progress_some (j : Job) (st : Option Status) (x : ℤ) (e : Option String)
    (oa : Option (List Output)) :
    (update j st (some x) e oa).progress = max 0 (min 100 x) := by
  rcases st with _ | s <;> rcases e with _ | e <;>
    rcases oa with _ | oa <;> simp only [update] <;> split <;> rfl

theorem update_progress_none (j : Job) (st : Option Status) (e : Option String)
    (oa : Option (List Output)) : (update j st none e oa).progress = j.progress := by
  rcases st with _ | s <;> rcases e with _ | e <;>
    rcases oa with _ | oa <;> simp only [update] <;> split <;> rfl

theorem update_error_some (j : Job) (st : Option Status) (p : Option ℤ) (m : String)
    (oa : Option (List Output)) : (update j st p (some m) oa).error = m := by
  rcases st with _ | s <;> rcases p with _ | p <;>
    rcases oa with _ | oa <;> simp only [update] <;> split <;> rfl

theorem update_error_none (j : Job) (st : Option Status) (p : Option ℤ)
    (oa : Option (List Output)) : (update j st p none oa).error = j.error := by
  rcases st with _ | s <;> rcases p with _ | p <;>
    rcases oa with _ | oa <;> simp only [update] <;> split <;> rfl

theorem update_outputs_none (j : Job) (st : Option Status) (p : Option ℤ) (e : Option String) :
    (update j st p e none).outputs = j.outputs := by
  rcases st with _ | s <;> rcases p with _ | p <;> rcases e with _ | e <;> rfl

theorem update_outputs_some (j : Job) (st : Option Status) (p : Option ℤ) (e : Option String)
    (l : List Output) : (update j st p e (some l)).outputs = j.outputs ++ l := by
  rcases st with _ | s <;> rcases p with _ | p <;> rcases e with _ | e <;>
    simp only [update] <;> rcases hl : l.isEmpty <;>
      simp [List.isEmpty_iff] at hl <;> simp [hl]

/-! ### Lemmas about the progress model `_progress_for_step` -/

theorem _progress_for_step_nonpos (i t : ℤ) (h : t ≤ 0) : _progress_for_step i t = 100 := by
  simp [_progress_for_step, h]

/-- For a positive total and a nonnegative index the truncation toward
zero is a floor, and the integer-division definition agrees with the
rational linear interpolation of the source. -/
theorem _progress_for_step_eq_floor (i t : ℤ) (ht : 0 < t) (hi : 0 ≤ i) :
    _progress_for_step i t = ⌊(10 : ℚ) + (95 - 10) * ((i : ℚ) / (t : ℚ))⌋ := by
  have htz : ¬ t ≤ 0 := not_le.mpr ht
  have hnum : (0 : ℤ) ≤ 10 * t + 85 * i := by positivity
  have htq : (0 : ℚ) < (t : ℚ) := by exact_mod_cast ht
  have hrw : (10 : ℚ) + (95 - 10) * ((i : ℚ) / (t : ℚ)) =
      ((10 * t + 85 * i : ℤ) : ℚ) / ((t.toNat : ℕ) : ℚ) := by
    have : ((t.toNat : ℕ) : ℚ) = (t : ℚ) := by
      rw [← Int.cast_natCast]
      exact congrArg _ (Int.toNat_of_nonneg ht.le)
    rw [this]
    field_simp
    ring_nf
    tauto
  rw [_progress_for_step, if_neg htz, hrw, Rat.floor_intCast_div_natCast,
    Int.toNat_of_nonneg ht.le, Int.tdiv_eq_ediv hnum ht.le]

theorem _progress_for_step_lb (i t : ℤ) (ht : 0 < t) (hi : 0 ≤ i) :
    10 ≤ _progress_for_step i t := by
  rw [_progress_for_step_eq_floor i t ht hi]
  rw [Int.le_floor]
  have htq : (0 : ℚ) < (t : ℚ) := by exact_mod_cast ht
  have hiq : (0 : ℚ) ≤ (i : ℚ) := by exact_mod_cast hi
  have : (0 : ℚ) ≤ (95 - 10) * ((i : ℚ) / (t : ℚ)) := by positivity
  push_cast
  linarith

theorem _progress_for_step_ub (i t : ℤ) (ht : 0 < t) (hi : 0 ≤ i) (hit : i ≤ t) :
    _progress_for_step i t ≤ 95 := by
  rw [_progress_for_step_eq_floor i t ht hi]
  have htq : (0 : ℚ) < (t : ℚ) := by exact_mod_cast ht
  have hitq : (i : ℚ) ≤ (t : ℚ) := by exact_mod_cast hit
  have hdiv : (i : ℚ) / (t : ℚ) ≤ 1 := (div_le_one htq).mpr hitq
  have harg : (10 : ℚ) + (95 - 10) * ((i : ℚ) / (t : ℚ)) ≤ ((95 : ℤ) : ℚ) := by
    push_cast
    linarith
  calc ⌊(10 : ℚ) + (95 - 10) * ((i : ℚ) / (t : ℚ))⌋ ≤ ⌊((95 : ℤ) : ℚ)⌋ :=
        Int.floor_le_floor harg
    _ = 95 := Int.floor_intCast 95

theorem _progress_for_step_mono (i j t : ℤ) (ht : 0 < t) (hi : 0 ≤ i) (hij : i ≤ j) :
    _progress_for_step i t ≤ _progress_for_step j t := by
  rw [_progress_for_step_eq_floor i t ht hi, _progress_for_step_eq_floor j t ht (hi.trans hij)]
  apply Int.floor_le_floor
  have htq : (0 : ℚ) < (t : ℚ) := by exact_mod_cast ht
  have hijq : (i : ℚ) ≤ (j : ℚ) := by exact_mod_cast hij
  have : (i : ℚ) / (t : ℚ) ≤ (j : ℚ) / (t : ℚ) := by gcongr
  linarith [this]

/-- The clamp in `update` is the identity on in-range checkpoint values. -/
theorem clamp_progress_id (x : ℤ) (h0 : 0 ≤ x) (h1 : x ≤ 100) :
    max 0 (min 100 x) = x := by
  omega

/-! ### Classification of step dispatch outcomes -/

theorem evalStep_produced {env : Env} {i : ℕ} {step : String} {o : Output}
    (h : evalStep env i step = StepEval.produced o) :
    stepApplicable step env.kind = true ∧ o = stepDescriptor step env.stem := by
  rcases he : env.toolError i with _ | m <;>
    cases hk : env.kind <;>
    by_cases h1 : step = "thumbnail" <;>
    by_cases h2 : step = "watermark" <;>
    by_cases h3 : step = "transcode_720p" <;>
    by_cases h4 : step = "hls_720p" <;>
    simp_all [evalStep, stepApplicable, stepDescriptor]

theorem evalStep_skipped {env : Env} {i : ℕ} {step : String}
    (h : evalStep env i step = StepEval.skipped) :
    stepApplicable step env.kind = false := by
  rcases he : env.toolError i with _ | m <;>
    cases hk : env.kind <;>
    by_cases h1 : step = "thumbnail" <;>
    by_cases h2 : step = "watermark" <;>
    by_cases h3 : step = "transcode_720p" <;>
    by_cases h4 : step = "hls_720p" <;>
    simp_all [evalStep, stepApplicable, stepDescriptor]

/-! ### Unfolding lemmas for the step loop -/

theorem runSteps_nil (env : Env) (total : ℤ) (i : ℕ) (job : Job) :
    runSteps env total [] i job = ⟨job, [], [], none, 0⟩ := rfl

theorem runSteps_cons_skipped (env : Env) (total : ℤ) (step : String) (rest : List String)
    (i : ℕ) (job : Job) (h : evalStep env i step = StepEval.skipped) :
    runSteps env total (step :: rest) i job =
      (let j1 := update job none (some (_progress_for_step ((i : ℤ) - 1) total)) none none
       let r := runSteps env total rest (i + 1) j1
       ⟨r.job, j1 :: r.snaps, r.outputs, r.err, r.entered + 1⟩) := by
  simp only [runSteps, h]

theorem runSteps_cons_raised (env : Env) (total : ℤ) (step : String) (rest : List String)
    (i : ℕ) (job : Job) (msg : String) (h : evalStep env i step = StepEval.raised msg) :
    runSteps env total (step :: rest) i job =
      (let j1 := update job none (some (_progress_for_step ((i : ℤ) - 1) total)) none none
       ⟨j1, [j1], [], some msg, 1⟩) := by
  simp only [runSteps, h]

theorem runSteps_cons_produced (env : Env) (total : ℤ) (step : String) (rest : List String)
    (i : ℕ) (job : Job) (o : Output) (h : evalStep env i step = StepEval.produced o) :
    runSteps env total (step :: rest) i job =
      (let j1 := update job none (some (_progress_for_step ((i : ℤ) - 1) total)) none none
       let j2 := update j1 none (some (_progress_for_step (i : ℤ) total)) none none
       let r := runSteps env total rest (i + 1) j2
       ⟨r.job, j1 :: j2 :: r.snaps, o :: r.outputs, r.err, r.entered + 1⟩) := by
  simp only [runSteps, h]

/-! ### Invariants of the step loop -/

/-- No update inside the loop touches the outputs list: descriptors are
only accumulated in the local `outputs` variable. -/
theorem runSteps_outputs_const (env : Env) (total : ℤ) :
    ∀ (steps : List String) (i : ℕ) (job : Job),
      (runSteps env total steps i job).job.outputs = job.outputs ∧
      ∀ s ∈ (runSteps env total steps i job).snaps, s.outputs = job.outputs := by
  intro steps
  induction steps with
  | nil => intro i job; simp [runSteps_nil]
  | cons step rest ih =>
    intro i job
    rcases hev : evalStep env i step with _ | o | m
    · rw [runSteps_cons_skipped env total step rest i job hev]
      obtain ⟨hjob, hsnaps⟩ :=
        ih (i + 1) (update job none (some (_progress_for_step ((i : ℤ) - 1) total)) none none)
      refine ⟨by simpa [update_outputs_none] using hjob, ?_⟩
      intro s hs
      rcases List.mem_cons.mp hs with hs | hs
      · subst hs; exact update_outputs_none _ _ _ _
      · simpa [update_outputs_none] using hsnaps s hs
    · rw [runSteps_cons_produced env total step rest i job o hev]
      obtain ⟨hjob, hsnaps⟩ :=
        ih (i + 1) (update (update job none (some (_progress_for_step ((i : ℤ) - 1) total))
          none none) none (some (_progress_for_step (i : ℤ) total)) none none)
      refine ⟨by simpa [update_outputs_none] using hjob, ?_⟩
      intro s hs
      rcases List.mem_cons.mp hs with hs | hs
      · subst hs; exact update_outputs_none _ _ _ _
      rcases List.mem_cons.mp hs with hs | hs
      · subst hs; simp [update_outputs_none]
      · simpa [update_outputs_none] using hsnaps s hs
    · rw [runSteps_cons_raised env total step rest i job m hev]
      refine ⟨update_outputs_none _ _ _ _, ?_⟩
      intro s hs
      rcases List.mem_cons.mp hs with hs | hs
      · subst hs; exact update_outputs_none _ _ _ _
      · simp at hs

/-- When the loop finishes with no exception, the accumulated outputs are
exactly one descriptor per kind-applicable step, in step order. -/
theorem runSteps_err_none_outputs (env : Env) (total : ℤ) :
    ∀ (steps : List String) (i : ℕ) (job : Job),
      (runSteps env total steps i job).err = none →
      (runSteps env total steps i job).outputs =
        (steps.filter (fun s => stepApplicable s env.kind)).map
          (fun s => stepDescriptor s env.stem) := by
  intro steps
  induction steps with
  | nil => intro i job _; simp [runSteps_nil]
  | cons step rest ih =>
    intro i job herr
    rcases hev : evalStep env i step with _ | o | m
    · rw [runSteps_cons_skipped env total step rest i job hev] at herr ⊢
      have happ := evalStep_skipped hev
      simp only [List.filter_cons, happ, ite_false, Bool.false_eq_true]
      exact ih _ _ herr
    · rw [runSteps_cons_produced env total step rest i job o hev] at herr ⊢
      have ⟨happ, ho⟩ := evalStep_produced hev
      simp only [List.filter_cons, happ, ite_true, List.map_cons]
      rw [ih _ _ herr, ho]
    · rw [runSteps_cons_raised env total step rest i job m hev] at herr
      simp at herr

/-- Every output the loop ever accumulates is the descriptor of some
kind-applicable step of the pipeline, keyed by the input stem. -/
theorem runSteps_outputs_mem (env : Env) (total : ℤ) :
    ∀ (steps : List String) (i : ℕ) (job : Job) (o : Output),
      o ∈ (runSteps env total steps i job).outputs →
      ∃ step, step ∈ steps ∧ stepApplicable step env.kind = true ∧
        o = stepDescriptor step env.stem := by
  intro steps
  induction steps with
  | nil => intro i job o ho; simp [runSteps_nil] at ho
  | cons step rest ih =>
    intro i job o ho
    rcases hev : evalStep env i step with _ | o' | m
    · rw [runSteps_cons_skipped env total step rest i job hev] at ho
      obtain ⟨st, hst, h1, h2⟩ := ih _ _ _ ho
      exact ⟨st, List.mem_cons_of_mem _ hst, h1, h2⟩
    · rw [runSteps_cons_produced env total step rest i job o' hev] at ho
      rcases List.mem_cons.mp ho with ho | ho
      · obtain ⟨h1, h2⟩ := evalStep_produced hev
        exact ⟨step, List.mem_cons_self _ _, h1, ho ▸ h2⟩
      · obtain ⟨st, hst, h1, h2⟩ := ih _ _ _ ho
        exact ⟨st, List.mem_cons_of_mem _ hst, h1, h2⟩
    · rw [runSteps_cons_raised env total step rest i job m hev] at ho
      simp at ho

/-! ### The published progress trace -/

/-- Modelled from the spec (as amended): the progress checkpoints the loop
publishes.  Each reached step publishes its pre-step checkpoint
`progress_for(i-1, n)`; a step the executor actually runs also publishes
the post-step checkpoint `progress_for(i, n)` after completing; a
kind-inapplicable step is skipped by `continue` and publishes no post-step
checkpoint; a raising step ends the loop after its pre-step checkpoint. -/
def specCheckpointTrace (env : Env) (total : ℤ) : List String → ℕ → List ℤ
  | [], _ => []
  | step :: rest, i =>
    _progress_for_step ((i : ℤ) - 1) total ::
      match evalStep env i step with
      | StepEval.skipped => specCheckpointTrace env total rest (i + 1)
      | StepEval.raised _ => []
      | StepEval.produced _ =>
        _progress_for_step (i : ℤ) total :: specCheckpointTrace env total rest (i + 1)

/-- The clamp in `update` is the identity on every in-band checkpoint. -/
theorem clamp_pf (k t : ℤ) (ht : 0 < t) (hk : 0 ≤ k) (hkt : k ≤ t) :
    max 0 (min 100 (_progress_for_step k t)) = _progress_for_step k t := by
  have h1 := _progress_for_step_lb k t ht hk
  have h2 := _progress_for_step_ub k t ht hk hkt
  omega

/-- The sequence of progress values the loop persists is exactly the
checkpoint trace. -/
theorem runSteps_snaps_map_progress (env : Env) (total : ℤ) :
    ∀ (steps : List String) (i : ℕ) (job : Job),
      1 ≤ i → ((i : ℤ) + steps.length = total + 1) →
      (runSteps env total steps i job).snaps.map Job.progress =
        specCheckpointTrace env total steps i := by
  intro steps
  induction steps with
  | nil => intro i job _ _; simp [runSteps_nil, specCheckpointTrace]
  | cons step rest ih =>
    intro i job hi hinv
    simp only [List.length_cons] at hinv
    push_cast at hinv
    have hiz : (1 : ℤ) ≤ (i : ℤ) := by exact_mod_cast hi
    have ht : 0 < total := by omega
    have hi1 : (0 : ℤ) ≤ (i : ℤ) - 1 := by omega
    have hile : (i : ℤ) ≤ total := by omega
    have hpre : (update job none (some (_progress_for_step ((i : ℤ) - 1) total))
        none none).progress = _progress_for_step ((i : ℤ) - 1) total := by
      rw [update_progress_some]
      exact clamp_pf _ _ ht hi1 (by omega)
    rcases hev : evalStep env i step with _ | o | m
    · rw [runSteps_cons_skipped env total step rest i job hev]
      simp only [specCheckpointTrace, hev, List.map_cons]
      rw [hpre, ih (i + 1) _ (by omega) (by push_cast; omega)]
    · rw [runSteps_cons_produced env total step rest i job o hev]
      simp only [specCheckpointTrace, hev, List.map_cons]
      have hpost : (update (update job none (some (_progress_for_step ((i : ℤ) - 1) total))
          none none) none (some (_progress_for_step (i : ℤ) total)) none none).progress =
          _progress_for_step (i : ℤ) total := by
        rw [update_progress_some]
        exact clamp_pf _ _ ht (by positivity) hile
      rw [hpre, hpost, ih (i + 1) _ (by omega) (by push_cast; omega)]
    · rw [runSteps_cons_raised env total step rest i job m hev]
      simp only [specCheckpointTrace, hev, List.map_cons, List.map_nil]
      rw [hpre]

/-- The checkpoint trace is non-decreasing, bounded below by the pre-step
checkpoint of its first reached step and above by 95. -/
theorem specCheckpointTrace_chain (env : Env) (total : ℤ) :
    ∀ (steps : List String) (i : ℕ),
      1 ≤ i → ((i : ℤ) + steps.length = total + 1) →
      List.Chain' (· ≤ ·) (specCheckpointTrace env total steps i) ∧
      ∀ x ∈ specCheckpointTrace env total steps i,
        _progress_for_step ((i : ℤ) - 1) total ≤ x ∧ x ≤ 95 := by
  intro steps
  induction steps with
  | nil => intro i _ _; simp [specCheckpointTrace]
  | cons step rest ih =>
    intro i hi hinv
    simp only [List.length_cons] at hinv
    push_cast at hinv
    have hiz : (1 : ℤ) ≤ (i : ℤ) := by exact_mod_cast hi
    have ht : 0 < total := by omega
    have hi1 : (0 : ℤ) ≤ (i : ℤ) - 1 := by omega
    have hile : (i : ℤ) ≤ total := by omega
    have hmono : _progress_for_step ((i : ℤ) - 1) total ≤ _progress_for_step (i : ℤ) total :=
      _progress_for_step_mono _ _ _ ht hi1 (by omega)
    have hub : _progress_for_step ((i : ℤ) - 1) total ≤ 95 :=
      _progress_for_step_ub _ _ ht hi1 (by omega)
    rcases hev : evalStep env i step with _ | o | m
    · simp only [specCheckpointTrace, hev]
      obtain ⟨hch, hbd⟩ := ih (i + 1) (by omega) (by push_cast; omega)
      have hcast : ((i + 1 : ℕ) : ℤ) - 1 = (i : ℤ) := by push_cast; ring
      constructor
      · rw [List.chain'_cons']
        refine ⟨fun y hy => ?_, hch⟩
        have hmem := List.mem_of_mem_head? hy
        have := (hbd y hmem).1
        rw [hcast] at this
        exact hmono.trans this
      · intro x hx
        rcases List.mem_cons.mp hx with hx | hx
        · exact ⟨hx ▸ le_refl _, hx ▸ hub⟩
        · have := hbd x hx
          rw [hcast] at this
          exact ⟨hmono.trans this.1, this.2⟩
    · simp only [specCheckpointTrace, hev]
      obtain ⟨hch, hbd⟩ := ih (i + 1) (by omega) (by push_cast; omega)
      have hcast : ((i + 1 : ℕ) : ℤ) - 1 = (i : ℤ) := by push_cast; ring
      have hub2 : _progress_for_step (i : ℤ) total ≤ 95 :=
        _progress_for_step_ub _ _ ht (by positivity) hile
      constructor
      · rw [List.chain'_cons']
        refine ⟨fun y hy => ?_, ?_⟩
        · simp only [List.head?_cons, Option.mem_def, Option.some.injEq] at hy
          exact hy ▸ hmono
        · rw [List.chain'_cons']
          refine ⟨fun y hy => ?_, hch⟩
          have hmem := List.mem_of_mem_head? hy
          have := (hbd y hmem).1
          rw [hcast] at this
          exact this
      · intro x hx
        rcases List.mem_cons.mp hx with hx | hx
        · exact ⟨hx ▸ le_refl _, hx ▸ hub⟩
        rcases List.mem_cons.mp hx with hx | hx
        · exact ⟨hx ▸ hmono, hx ▸ hub2⟩
        · have := hbd x hx
          rw [hcast] at this
          exact ⟨hmono.trans this.1, this.2⟩
    · simp only [specCheckpointTrace, hev]
      exact ⟨List.chain'_singleton _, by
        intro x hx
        rcases List.mem_cons.mp hx with hx | hx
        · exact ⟨hx ▸ le_refl _, hx ▸ hub⟩
        · simp at hx⟩

/-- The trace the `try` block persists: the loop checkpoints followed by
the final 100 of the success or failure update. -/
theorem runPipeline_snaps_map_progress (env : Env) (j1 : Job) (tmp : Bool)
    (pl : List String) :
    (runPipeline env j1 tmp pl).snaps.map Job.progress =
      specCheckpointTrace env (pl.length : ℤ) pl 1 ++ [100] := by
  have hloop := runSteps_snaps_map_progress env (pl.length : ℤ) pl 1 j1
    (le_refl 1) (by push_cast; ring)
  unfold runPipeline
  rcases herr : (runSteps env (pl.length : ℤ) pl 1 j1).err with _ | m <;>
    simp only [herr] <;>
    rw [List.map_append, hloop] <;>
    simp [update_progress_some]

/-! ### Structural case analysis of `process_media` -/

theorem effPipeline_eq_nil (k : Kind) (pl : List String) :
    effPipeline k pl = [] ↔ pl = [] ∧ k = Kind.other := by
  by_cases hp : pl = [] <;> cases k <;> simp [effPipeline, hp]

/-- When the resolver raises, the exception propagates before the `try`
block: the job record keeps the `STARTED` update and nothing else runs. -/
theorem process_media_resolve_error (env : Env) (job0 : Job) (msg : String)
    (hres : env.resolve = Except.error msg) :
    process_media env job0 =
      ⟨update job0 (some Status.STARTED) (some 5) none none,
       [update job0 (some Status.STARTED) (some 5) none none], some msg, false, false, 0⟩ := by
  unfold process_media
  rw [hres]

/-- The early `return` for an empty pipeline on kind `other`: a `FAILURE`
update, no loop, and — the `return` being before the `try`/`finally` —
no temporary-file cleanup. -/
theorem process_media_other (env : Env) (job0 : Job) (pr : String × Bool)
    (hres : env.resolve = Except.ok pr) (hp : job0.pipeline = [])
    (hk : env.kind = Kind.other) :
    process_media env job0 =
      (let j1 := update job0 (some Status.STARTED) (some 5) none none
       let j2 := update j1 (some Status.FAILURE) (some 100)
         (some "Unsupported file type; no pipeline.") none
       ⟨j2, [j1, j2], none, pr.2, false, 0⟩) := by
  unfold process_media
  rw [hres]
  simp [hp, hk]

/-- Whenever the effective pipeline is nonempty, `process_media` is the
`STARTED` update followed by the `try`/`except`/`finally` block over it. -/
theorem process_media_run (env : Env) (job0 : Job) (pr : String × Bool)
    (hres : env.resolve = Except.ok pr)
    (hne : effPipeline env.kind job0.pipeline ≠ []) :
    process_media env job0 =
      (let j1 := update job0 (some Status.STARTED) (some 5) none none
       let r := runPipeline env j1 pr.2 (effPipeline env.kind job0.pipeline)
       ⟨r.job, j1 :: r.snaps, r.raised, r.tempCreated, r.tempDeleted, r.entered⟩) := by
  unfold process_media
  rw [hres]
  by_cases hp : job0.pipeline = []
  · cases hk : env.kind
    · simp [hp, hk, effPipeline]
    · simp [hp, hk, effPipeline]
    · exact absurd ((effPipeline_eq_nil _ _).mpr ⟨hp, hk⟩) hne
  · simp [effPipeline, hp]

/-! ### Outcome of the `try` block -/

theorem runPipeline_raised_err (env : Env) (j1 : Job) (tmp : Bool) (pl : List String) :
    (runPipeline env j1 tmp pl).raised = (runSteps env (pl.length : ℤ) pl 1 j1).err := by
  unfold runPipeline
  rcases herr : (runSteps env (pl.length : ℤ) pl 1 j1).err with _ | m <;> simp [herr]

/-- A raising step ends the run in `FAILURE`, progress 100, the truncated
message, and with the outputs list untouched in every persisted snapshot. -/
theorem runPipeline_err (env : Env) (j1 : Job) (tmp : Bool) (pl : List String) (msg : String)
    (h : (runPipeline env j1 tmp pl).raised = some msg) :
    (runPipeline env j1 tmp pl).job.status = Status.FAILURE ∧
    (runPipeline env j1 tmp pl).job.progress = 100 ∧
    (runPipeline env j1 tmp pl).job.error = pyTake msg 4000 ∧
    ∀ s ∈ (runPipeline env j1 tmp pl).snaps, s.outputs = j1.outputs := by
  have hconst := runSteps_outputs_const env (pl.length : ℤ) pl 1 j1
  rw [runPipeline_raised_err] at h
  simp only [runPipeline, h]
  refine ⟨update_status_some _ _ _ _ _, by rw [update_progress_some]; decide,
    update_error_some _ _ _ _ _, ?_⟩
  intro s hs
  rcases List.mem_append.mp hs with hs | hs
  · exact hconst.2 s hs
  · simp only [List.mem_singleton] at hs
    subst hs
    rw [update_outputs_none]
    exact hconst.1

/-- A run with no raising step ends in `SUCCESS`, progress 100, with the
descriptors of the kind-applicable steps appended in the one final update
and no earlier snapshot touching the outputs list. -/
theorem runPipeline_ok (env : Env) (j1 : Job) (tmp : Bool) (pl : List String)
    (h : (runPipeline env j1 tmp pl).raised = none) :
    (runPipeline env j1 tmp pl).job.status = Status.SUCCESS ∧
    (runPipeline env j1 tmp pl).job.progress = 100 ∧
    (runPipeline env j1 tmp pl).job.outputs =
      j1.outputs ++ (pl.filter (fun s => stepApplicable s env.kind)).map
        (fun s => stepDescriptor s env.stem) ∧
    (runPipeline env j1 tmp pl).snaps.dropLast.all (fun s => s.outputs == j1.outputs) = true := by
  have hconst := runSteps_outputs_const env (pl.length : ℤ) pl 1 j1
  rw [runPipeline_raised_err] at h
  have houts := runSteps_err_none_outputs env (pl.length : ℤ) pl 1 j1 h
  simp only [runPipeline, h]
  refine ⟨update_status_some _ _ _ _ _, by rw [update_progress_some]; decide, ?_, ?_⟩
  · rw [update_outputs_some, hconst.1, houts]
  · rw [List.dropLast_concat, List.all_eq_true]
    intro s hs
    simpa using hconst.2 s hs

theorem runPipeline_temp (env : Env) (j1 : Job) (tmp : Bool) (pl : List String) :
    (runPipeline env j1 tmp pl).tempCreated = tmp ∧
    (runPipeline env j1 tmp pl).tempDeleted = (tmp && env.unlinkOk) := by
  unfold runPipeline
  rcases herr : (runSteps env (pl.length : ℤ) pl 1 j1).err with _ | m <;> simp [herr]

/-! ### Properties of pipeline validation -/

theorem dedupKeepFirst_mem : ∀ (l seen : List String) (s : String),
    s ∈ dedupKeepFirst l seen ↔ s ∈ l ∧ s ∉ seen := by
  intro l
  induction l with
  | nil => intro seen s; simp [dedupKeepFirst]
  | cons a rest ih =>
    intro seen s
    by_cases ha : a ∈ seen
    · simp only [dedupKeepFirst, if_pos ha]
      rw [ih]
      constructor
      · rintro ⟨h1, h2⟩
        exact ⟨List.mem_cons_of_mem _ h1, h2⟩
      · rintro ⟨h1, h2⟩
        rcases List.mem_cons.mp h1 with h1 | h1
        · exact absurd (h1 ▸ ha) h2
        · exact ⟨h1, h2⟩
    · simp only [dedupKeepFirst, if_neg ha, List.mem_cons]
      rw [ih]
      constructor
      · rintro (h | ⟨h1, h2⟩)
        · exact ⟨Or.inl h, h ▸ ha⟩
        · exact ⟨Or.inr h1, fun hs => h2 (List.mem_cons_of_mem _ hs)⟩
      · rintro ⟨h1 | h1, h2⟩
        · exact Or.inl h1
        · by_cases hsa : s = a
          · exact Or.inl hsa
          · exact Or.inr ⟨h1, fun hs => by
              rcases List.mem_cons.mp hs with h | h
              · exact hsa h
              · exact h2 h⟩

theorem dedupKeepFirst_sublist : ∀ (l seen : List String),
    (dedupKeepFirst l seen).Sublist l := by
  intro l
  induction l with
  | nil => intro seen; simp [dedupKeepFirst]
  | cons a rest ih =>
    intro seen
    by_cases ha : a ∈ seen
    · simp only [dedupKeepFirst, if_pos ha]
      exact (ih seen).trans (List.sublist_cons_self a rest)
    · simp only [dedupKeepFirst, if_neg ha]
      exact List.Sublist.cons₂ a (ih (a :: seen))

theorem dedupKeepFirst_nodup : ∀ (l seen : List String),
    (dedupKeepFirst l seen).Nodup := by
  intro l
  induction l with
  | nil => intro seen; simp [dedupKeepFirst]
  | cons a rest ih =>
    intro seen
    by_cases ha : a ∈ seen
    · simp only [dedupKeepFirst, if_pos ha]
      exact ih seen
    · simp only [dedupKeepFirst, if_neg ha]
      refine List.Nodup.cons ?_ (ih (a :: seen))
      intro hmem
      exact ((dedupKeepFirst_mem rest (a :: seen) a).mp hmem).2 (List.mem_cons_self a seen)

/-! ### The executor never reads the job id -/

/-- Replace a job's primary key, keeping every other field. -/
def setId (i : String) (j : Job) : Job := { j with id := i }

theorem update_setId (i : String) (j : Job) (st : Option Status) (p : Option ℤ)
    (e : Option String) (oa : Option (List Output)) :
    update (setId i j) st p e oa = setId i (update j st p e oa) := by
  rcases st with _ | s <;> rcases p with _ | p <;> rcases e with _ | e <;>
    rcases oa with _ | oa <;> simp only [update, setId] <;> split <;> rfl

theorem runSteps_setId (env : Env) (total : ℤ) :
    ∀ (steps : List String) (k : ℕ) (i : String) (j : Job),
      runSteps env total steps k (setId i j) =
        (let r := runSteps env total steps k j
         ⟨setId i r.job, r.snaps.map (setId i), r.outputs, r.err, r.entered⟩) := by
  intro steps
  induction steps with
  | nil => intro k i j; simp [runSteps_nil]
  | cons step rest ih =>
    intro k i j
    rcases hev : evalStep env k step with _ | o | m
    · rw [runSteps_cons_skipped env total step rest k _ hev,
        runSteps_cons_skipped env total step rest k j hev]
      simp only [update_setId, ih, List.map_cons, List.map_nil]
    · rw [runSteps_cons_produced env total step rest k _ o hev,
        runSteps_cons_produced env total step rest k j o hev]
      simp only [update_setId, ih, List.map_cons, List.map_nil]
    · rw [runSteps_cons_raised env total step rest k _ m hev,
        runSteps_cons_raised env total step rest k j m hev]
      simp only [update_setId, List.map_cons, List.map_nil]

theorem runPipeline_setId (env : Env) (i : String) (j1 : Job) (tmp : Bool)
    (pl : List String) :
    runPipeline env (setId i j1) tmp pl =
      (let r := runPipeline env j1 tmp pl
       ⟨setId i r.job, r.snaps.map (setId i), r.raised, r.tempCreated, r.tempDeleted,
        r.entered⟩) := by
  simp only [runPipeline, runSteps_setId]
  rcases herr : (runSteps env (pl.length : ℤ) pl 1 j1).err with _ | m <;>
    simp [herr, update_setId]

theorem process_media_setId (env : Env) (job0 : Job) (i : String) :
    process_media env (setId i job0) =
      (let r := process_media env job0
       ⟨setId i r.job, r.snaps.map (setId i), r.raised, r.tempCreated, r.tempDeleted,
        r.entered⟩) := by
  unfold process_media
  have hpl : (setId i job0).pipeline = job0.pipeline := rfl
  rcases hres : env.resolve with msg | pr
  · simp [update_setId]
  · simp only [hpl, update_setId]
    by_cases hp : job0.pipeline = []
    · cases hk : env.kind <;> simp [hp, hk, runPipeline_setId, update_setId]
    · simp [hp, runPipeline_setId]

/-! ### Concrete scenarios -/

/-- Scenario B of the spec: a video input processed with the explicit
pipeline `["transcode_720p", "hls_720p"]`, no failures. -/
def jobB : Job :=
  { id := "job-b", input_path := "uploads/a.mp4", status := Status.PENDING, progress := 0,
    outputs := [], error := "", pipeline := ["transcode_720p", "hls_720p"] }

/-- Environment for scenario B: the input is already local, classified as
video, and every external tool succeeds. -/
def envB : Env :=
  { resolve := Except.ok ("uploads/a.mp4", false), kind := Kind.video, stem := "a",
    toolError := fun _ => none, unlinkOk := true }

/-- Scenario C of the spec: a video input with the kind-inapplicable
pipeline `["thumbnail"]`. -/
def jobSkip : Job :=
  { id := "job-c", input_path := "uploads/a.mp4", status := Status.PENDING, progress := 0,
    outputs := [], error := "", pipeline := ["thumbnail"] }

/-- A job with an empty stored pipeline whose input will classify as
neither image nor video. -/
def jobLeak : Job :=
  { id := "job-leak", input_path := "uploads/notes.bin", status := Status.PENDING,
    progress := 0, outputs := [], error := "", pipeline := [] }

/-- Environment where the input is not local, so the resolver downloads it
to a temporary file (`is_temp = true`), and the kind classifies as other. -/
def envLeak : Env :=
  { resolve := Except.ok ("/tmp/tmp123.bin", true), kind := Kind.other, stem := "tmp123",
    toolError := fun _ => none, unlinkOk := true }

/-- Scenario D of the spec: no local file and the S3 download raises. -/
def envDown : Env :=
  { resolve := Except.error "An error occurred (404) when calling the HeadObject operation",
    kind := Kind.image, stem := "missing", toolError := fun _ => none, unlinkOk := true }

/-- Job referencing the missing input of scenario D. -/
def jobDown : Job :=
  { id := "job-d", input_path := "uploads/missing.png", status := Status.PENDING,
    progress := 0, outputs := [], error := "", pipeline := ["thumbnail"] }

/-- An image job with two steps whose second step's handler raises. -/
def jobTwoImg : Job :=
  { id := "job-e", input_path := "uploads/pic.jpg", status := Status.PENDING, progress := 0,
    outputs := [], error := "", pipeline := ["thumbnail", "watermark"] }

/-- Environment for `jobTwoImg`: resolution downloads a temporary copy and
the handler run at pipeline position 2 raises. -/
def envFailStep : Env :=
  { resolve := Except.ok ("/tmp/tmp9.jpg", true), kind := Kind.image, stem := "pic",
    toolError := fun i => if i = 2 then some "cannot identify image file" else none,
    unlinkOk := true }

/-- A mid-run job record used to exercise the status publisher. -/
def jobW : Job :=
  { id := "job-w", input_path := "uploads/x.png", status := Status.STARTED, progress := 42,
    outputs := [{ type := "thumbnail", s3_key := "outputs/x_thumb.jpg" }], error := "",
    pipeline := ["thumbnail", "watermark"] }

/-! ### Claims -/

/-- C1: the claim says a failed input resolution transitions the job to
`Failure` with the resolution error and progress 100.  The code calls
`_maybe_download_from_s3` before the `try` block (line 162 of
`src/api/tasks.py`), so the exception propagates instead: the job is left
in `STARTED` with progress 5 and its error field untouched, and no step
runs.  Only the "no steps attempted" part of the claim holds. -/
theorem C1_resolution_failure_leaves_job_started (env : Env) (job0 : Job) (msg : String)
    (hres : env.resolve = Except.error msg) :
    (process_media env job0).job.status = Status.STARTED ∧
    (process_media env job0).job.progress = 5 ∧
    (process_media env job0).job.error = job0.error ∧
    (process_media env job0).raised = some msg ∧
    (process_media env job0).entered = 0 ∧
    (process_media env job0).snaps.map Job.progress = [5] := by
  rw [process_media_resolve_error env job0 msg hres]
  refine ⟨update_status_some _ _ _ _ _, ?_, update_error_none _ _ _ _, rfl, rfl, ?_⟩
  · rw [update_progress_some]; decide
  · show [(update job0 (some Status.STARTED) (some 5) none none).progress] = [5]
    rw [update_progress_some]; decide

/-- C1 witness: scenario D concretely, with the 404 from the S3 client. -/
theorem C1_witness :
    (process_media envDown jobDown).job.status = Status.STARTED ∧
    (process_media envDown jobDown).job.progress = 5 ∧
    (process_media envDown jobDown).job.error = jobDown.error ∧
    (process_media envDown jobDown).raised =
      some "An error occurred (404) when calling the HeadObject operation" ∧
    (process_media envDown jobDown).entered = 0 ∧
    (process_media envDown jobDown).snaps.map Job.progress = [5] :=
  C1_resolution_failure_leaves_job_started envDown jobDown
    "An error occurred (404) when calling the HeadObject operation" rfl

/-- C2: the claim says a temporary resolved input is deleted on every exit
path before the job reaches a terminal state.  The "unsupported file type"
`return` (line 175 of `src/api/tasks.py`) exits before the `try`/`finally`,
so on that path the job reaches terminal `FAILURE` while the temporary
download is never deleted, although deletion itself would have
succeeded (`unlinkOk = true`). -/
theorem C2_temp_file_leaked_on_unsupported_kind :
    (process_media envLeak jobLeak).job.status = Status.FAILURE ∧
    (process_media envLeak jobLeak).job.progress = 100 ∧
    (process_media envLeak jobLeak).tempCreated = true ∧
    (process_media envLeak jobLeak).tempDeleted = false ∧
    envLeak.unlinkOk = true := by
  decide

/-- C3: when the executor got past resolution and the run raised (a step
handler failed or an unknown step name was met), the job ends in `FAILURE`
with progress 100, the error is the captured message truncated to 4000
characters, and no snapshot — final state included — ever gained an output
descriptor from this run. -/
theorem C3_step_failure_discards_outputs (env : Env) (job0 : Job) (pr : String × Bool)
    (msg : String) (hres : env.resolve = Except.ok pr)
    (hraise : (process_media env job0).raised = some msg) :
    (process_media env job0).job.status = Status.FAILURE ∧
    (process_media env job0).job.progress = 100 ∧
    (process_media env job0).job.error = pyTake msg 4000 ∧
    (process_media env job0).job.error.length ≤ 4000 ∧
    ∀ s ∈ (process_media env job0).snaps, s.outputs = job0.outputs := by
  by_cases hnil : effPipeline env.kind job0.pipeline = []
  · obtain ⟨hp, hk⟩ := (effPipeline_eq_nil _ _).mp hnil
    rw [process_media_other env job0 pr hres hp hk] at hraise
    simp at hraise
  · rw [process_media_run env job0 pr hres hnil] at hraise ⊢
    dsimp only at hraise ⊢
    obtain ⟨h1, h2, h3, h4⟩ := runPipeline_err env
      (update job0 (some Status.STARTED) (some 5) none none) pr.2
      (effPipeline env.kind job0.pipeline) msg hraise
    have hj1 : (update job0 (some Status.STARTED) (some 5) none none).outputs =
        job0.outputs := update_outputs_none _ _ _ _
    refine ⟨h1, h2, h3, ?_, ?_⟩
    · rw [h3]
      show ((msg.data.take 4000).length) ≤ 4000
      exact List.length_take_le 4000 msg.data
    · intro s hs
      rcases List.mem_cons.mp hs with hs | hs
      · subst hs; exact hj1
      · rw [h4 s hs, hj1]

/-- C3 witness: an image job whose second step (watermark) raises. -/
theorem C3_witness :
    (process_media envFailStep jobTwoImg).job.status = Status.FAILURE ∧
    (process_media envFailStep jobTwoImg).job.progress = 100 ∧
    (process_media envFailStep jobTwoImg).job.error =
      pyTake "cannot identify image file" 4000 ∧
    (process_media envFailStep jobTwoImg).job.error.length ≤ 4000 :=
  (fun h => ⟨h.1, h.2.1, h.2.2.1, h.2.2.2.1⟩)
    (C3_step_failure_discards_outputs envFailStep jobTwoImg ("/tmp/tmp9.jpg", true)
      "cannot identify image file" rfl rfl)

/-- C4: a run that gets past resolution and completes every step of the
effective pipeline without raising ends in `SUCCESS` with progress 100;
the persisted outputs are the previous list plus exactly one descriptor
per kind-applicable step, in step execution order; and every snapshot
before the final one left the outputs list untouched, i.e. the
descriptors are appended in the single final update. -/
theorem C4_success_outputs (env : Env) (job0 : Job) (pr : String × Bool)
    (hres : env.resolve = Except.ok pr)
    (hne : effPipeline env.kind job0.pipeline ≠ [])
    (hok : (process_media env job0).raised = none) :
    (process_media env job0).job.status = Status.SUCCESS ∧
    (process_media env job0).job.progress = 100 ∧
    (process_media env job0).job.outputs =
      job0.outputs ++ ((effPipeline env.kind job0.pipeline).filter
        (fun s => stepApplicable s env.kind)).map (fun s => stepDescriptor s env.stem) ∧
    ∀ s ∈ (process_media env job0).snaps.dropLast, s.outputs = job0.outputs := by
  rw [process_media_run env job0 pr hres hne] at hok ⊢
  dsimp only at hok ⊢
  obtain ⟨h1, h2, h3, h4⟩ := runPipeline_ok env
    (update job0 (some Status.STARTED) (some 5) none none) pr.2
    (effPipeline env.kind job0.pipeline) hok
  have hj1 : (update job0 (some Status.STARTED) (some 5) none none).outputs =
      job0.outputs := update_outputs_none _ _ _ _
  refine ⟨h1, h2, by rw [h3, hj1], ?_⟩
  rw [List.all_eq_true] at h4
  rcases hsn : (runPipeline env (update job0 (some Status.STARTED) (some 5) none none) pr.2
      (effPipeline env.kind job0.pipeline)).snaps with _ | ⟨a, l⟩
  · intro s hs
    simp at hs
  · intro s hs
    rw [List.dropLast_cons₂] at hs
    rcases List.mem_cons.mp hs with hs | hs
    · subst hs; exact hj1
    · have := h4 s (by rw [hsn]; exact hs)
      rw [beq_iff_eq] at this
      rw [this, hj1]

/-- C4 witness: scenario B ends in success with the two video descriptors
in execution order, appended to the initially empty list. -/
theorem C4_witness :
    (process_media envB jobB).job.status = Status.SUCCESS ∧
    (process_media envB jobB).job.progress = 100 ∧
    (process_media envB jobB).job.outputs =
      jobB.outputs ++ ((effPipeline envB.kind jobB.pipeline).filter
        (fun s => stepApplicable s envB.kind)).map (fun s => stepDescriptor s envB.stem) :=
  (fun h => ⟨h.1, h.2.1, h.2.2.1⟩)
    (C4_success_outputs envB jobB ("uploads/a.mp4", false) rfl (by decide) rfl)

/-- Division of zero by anything rounds to the double zero. -/
theorem fdiv_zero (t : ℤ) : fdiv 0 t = ⟨0, 0⟩ := by
  simp [fdiv, roundDouble]

/-- Division of a positive integer by itself reduces to `1 / 1`, which
rounds to the double one: CPython's `n / n` is exactly `1.0`. -/
theorem fdiv_self (n : ℤ) (hn : 0 < n) : fdiv n n = roundDouble 1 1 := by
  have hg : Int.gcd n n = n.natAbs := Nat.gcd_self n.natAbs
  have hne : n.natAbs ≠ 0 := by simpa using hn.ne'
  have hcast : ((n.natAbs : ℕ) : ℤ) = n := Int.natAbs_of_nonneg hn.le
  simp only [fdiv, hg, if_neg hne, hcast, Int.ediv_self hn.ne']

/-- C5: the claim says that for `total > 0` the function returns the
linear interpolation between 10 and 95 proportional to `index / total`,
truncated to an integer.  Counterexample at `idx = 49`, `total = 85`: the
source's IEEE double computation (`_progress_for_step_ieee`, bit-faithful
to CPython) yields `int(58.99999999999999) = 58`, while the truncated
exact interpolation is `trunc(10 + 85 * (49 / 85)) = trunc(59) = 59`. -/
theorem C5_counterexample_float_truncation :
    _progress_for_step_ieee 49 85 = 58 ∧
    ratTrunc ((10 : ℚ) + (95 - 10) * (((49 : ℤ) : ℚ) / ((85 : ℤ) : ℚ))) = 59 := by
  constructor
  · decide
  · have harg : ((10 : ℚ) + (95 - 10) * (((49 : ℤ) : ℚ) / ((85 : ℤ) : ℚ))) = 59 := by
      norm_num
    rw [ratTrunc, harg, if_neg (by norm_num),
      show ((59 : ℚ)) = ((59 : ℤ) : ℚ) by norm_num, Int.floor_intCast]

/-- C5 (amended): `progress_for` returns 100 whenever `total ≤ 0`;
otherwise it evaluates `10 + (95 - 10) * (index / total)` in IEEE double
arithmetic and truncates the result to an integer, which can land one
below the exact truncated interpolation (first at `index = 49`,
`total = 85`, where it returns 58 instead of the exact 59); the endpoints
are still exact: `progress_for(0, n) = 10` and `progress_for(n, n) = 95`
for every `n > 0` (the quotients 0 and 1 and all subsequent operations
are exact in binary64), and e.g. `progress_for(1, 2) = 52` as in the
two-step scenario. -/
theorem C5_amended_ieee_progress :
    (∀ i t : ℤ, t ≤ 0 → _progress_for_step_ieee i t = 100) ∧
    (∀ n : ℤ, 0 < n →
      _progress_for_step_ieee 0 n = 10 ∧ _progress_for_step_ieee n n = 95) ∧
    _progress_for_step_ieee 1 2 = 52 ∧
    _progress_for_step_ieee 49 85 = 58 := by
  refine ⟨?_, ?_, by decide, by decide⟩
  · intro i t ht
    simp [_progress_for_step_ieee, ht]
  · intro n hn
    constructor
    · simp only [_progress_for_step_ieee, if_neg (not_le.mpr hn), fdiv_zero]
      decide
    · simp only [_progress_for_step_ieee, if_neg (not_le.mpr hn), fdiv_self n hn]
      decide

/-- C5 witness: concrete evaluations of every part of the amended claim. -/
theorem C5_witness :
    _progress_for_step_ieee 3 0 = 100 ∧
    _progress_for_step_ieee 0 7 = 10 ∧
    _progress_for_step_ieee 7 7 = 95 ∧
    _progress_for_step_ieee 1 2 = 52 :=
  ⟨C5_amended_ieee_progress.1 3 0 (by decide),
   (C5_amended_ieee_progress.2.1 7 (by decide)).1,
   (C5_amended_ieee_progress.2.1 7 (by decide)).2,
   C5_amended_ieee_progress.2.2.1⟩

/-- C6: the claim says the executor publishes the post-step checkpoint
`progress_for(i, n)` after every reached step, including steps skipped as
kind-inapplicable.  Counterexample: a video input with pipeline
`["thumbnail"]` — the single step is skipped via `continue`, which jumps
past the post-step update, so `progress_for(1, 1) = 95` is never
published: the run publishes exactly 5, 10, 100. -/
theorem C6_counterexample_skipped_step_no_post_checkpoint :
    (process_media envB jobSkip).snaps.map Job.progress = [5, 10, 100] ∧
    _progress_for_step 1 1 = 95 ∧
    95 ∉ (process_media envB jobSkip).snaps.map Job.progress ∧
    (process_media envB jobSkip).job.status = Status.SUCCESS := by
  decide

/-- C6 (amended): every reached step publishes its pre-step checkpoint
`progress_for(i-1, n)` before processing; a step that actually executes
also publishes `progress_for(i, n)` after processing, while a
kind-inapplicable step is skipped by `continue` and publishes no
post-step checkpoint of its own; the whole run publishes
`5 :: checkpoints ++ [100]` (see `specCheckpointTrace`), which for the
two-step video pipeline is 10, 52, 52, 95 before the final 100. -/
theorem C6_amended_checkpoint_trace (env : Env) (job0 : Job) (pr : String × Bool)
    (hres : env.resolve = Except.ok pr)
    (hne : effPipeline env.kind job0.pipeline ≠ []) :
    (process_media env job0).snaps.map Job.progress =
      5 :: (specCheckpointTrace env ((effPipeline env.kind job0.pipeline).length : ℤ)
        (effPipeline env.kind job0.pipeline) 1 ++ [100]) := by
  rw [process_media_run env job0 pr hres hne]
  dsimp only
  rw [List.map_cons, runPipeline_snaps_map_progress, update_progress_some]
  have h5 : max (0 : ℤ) (min 100 5) = 5 := by decide
  rw [h5]

/-- C6 witness: scenario B publishes exactly 5, 10, 52, 52, 95, 100. -/
theorem C6_witness :
    (process_media envB jobB).snaps.map Job.progress = [5, 10, 52, 52, 95, 100] :=
  (C6_amended_checkpoint_trace envB jobB ("uploads/a.mp4", false) rfl (by decide)).trans
    (by decide)

/-- C7: in every execution, over all environments and initial job records,
the persisted progress values form a monotonically non-decreasing
sequence of integers within [0, 100]. -/
theorem C7_published_progress_monotone (env : Env) (job0 : Job) :
    List.Chain' (· ≤ ·) ((process_media env job0).snaps.map Job.progress) ∧
    ∀ x ∈ (process_media env job0).snaps.map Job.progress, 0 ≤ x ∧ x ≤ 100 := by
  rcases hres : env.resolve with msg | pr
  · rw [process_media_resolve_error env job0 msg hres]
    dsimp only
    rw [List.map_cons, List.map_nil, update_progress_some]
    refine ⟨List.chain'_singleton _, ?_⟩
    intro x hx
    simp at hx
    omega
  · by_cases hnil : effPipeline env.kind job0.pipeline = []
    · obtain ⟨hp, hk⟩ := (effPipeline_eq_nil _ _).mp hnil
      rw [process_media_other env job0 pr hres hp hk]
      dsimp only
      rw [List.map_cons, List.map_cons, List.map_nil, update_progress_some,
        update_progress_some]
      have h5 : max (0 : ℤ) (min 100 5) = 5 := by decide
      have h100 : max (0 : ℤ) (min 100 100) = 100 := by decide
      rw [h5, h100]
      refine ⟨?_, ?_⟩
      · rw [List.chain'_cons']
        refine ⟨fun y hy => ?_, List.chain'_singleton _⟩
        simp at hy
        omega
      intro x hx
      simp at hx
      rcases hx with hx | hx <;> omega
    · rw [process_media_run env job0 pr hres hnil]
      dsimp only
      rw [List.map_cons, runPipeline_snaps_map_progress, update_progress_some]
      have h5 : max (0 : ℤ) (min 100 5) = 5 := by decide
      rw [h5]
      have hlen : 0 < (effPipeline env.kind job0.pipeline).length :=
        List.length_pos.mpr hnil
      have hlenz : (0 : ℤ) < ((effPipeline env.kind job0.pipeline).length : ℤ) := by
        exact_mod_cast hlen
      obtain ⟨hch, hbd⟩ := specCheckpointTrace_chain env
        ((effPipeline env.kind job0.pipeline).length : ℤ)
        (effPipeline env.kind job0.pipeline) 1 (le_refl 1) (by push_cast; ring)
      have hcast : ((1 : ℕ) : ℤ) - 1 = (0 : ℤ) := by norm_num
      rw [hcast] at hbd
      have hlb : 10 ≤ _progress_for_step 0 ((effPipeline env.kind job0.pipeline).length : ℤ) :=
        _progress_for_step_lb _ _ hlenz le_rfl
      constructor
      · rw [List.chain'_cons']
        constructor
        · intro y hy
          rcases hL : specCheckpointTrace env
              ((effPipeline env.kind job0.pipeline).length : ℤ)
              (effPipeline env.kind job0.pipeline) 1 with _ | ⟨a, l⟩
          · rw [hL] at hy
            simp at hy
            omega
          · rw [hL] at hy
            simp at hy
            have ha := hbd a (by rw [hL]; exact List.mem_cons_self a l)
            omega
        · rw [List.chain'_append]
          refine ⟨hch, List.chain'_singleton _, ?_⟩
          intro x hx y hy
          simp at hy
          subst hy
          have := hbd x (List.mem_of_mem_getLast? hx)
          omega
      · intro x hx
        rcases List.mem_cons.mp hx with hx | hx
        · subst hx; exact ⟨by decide, by decide⟩
        rcases List.mem_append.mp hx with hx | hx
        · have := hbd x hx
          omega
        · simp at hx
          subst hx
          exact ⟨by decide, by decide⟩

/-- C7 witness: the monotone bounded trace of scenario B. -/
theorem C7_witness :
    List.Chain' (· ≤ ·) ((process_media envB jobB).snaps.map Job.progress) :=
  (C7_published_progress_monotone envB jobB).1

/-- C8: pipeline validation (`validate_pipeline`, run by the trigger view
before any `Job` row is created) errors on any step name outside the
allow-list; the example with a duplicate validates to its first-occurrence
dedup; and every accepted value is duplicate-free, a subsequence of the
request (first-occurrence order preserved), and has the same members. -/
theorem C8_validate_pipeline_spec :
    (∀ (v : List String) (s : String), s ∈ v → s ∉ ALLOWED_STEPS →
      ∃ e, validate_pipeline v = Except.error e) ∧
    validate_pipeline ["thumbnail", "watermark", "thumbnail"] =
      Except.ok ["thumbnail", "watermark"] ∧
    (∀ (v out : List String), validate_pipeline v = Except.ok out →
      out.Nodup ∧ out.Sublist v ∧ ∀ s, s ∈ out ↔ s ∈ v) := by
  refine ⟨?_, rfl, ?_⟩
  · intro v s hs hns
    have hv : v ≠ [] := List.ne_nil_of_mem hs
    have hbad : s ∈ v.filter (fun s => !(ALLOWED_STEPS.contains s)) :=
      List.mem_filter.mpr ⟨hs, by simp [hns]⟩
    have hbne : v.filter (fun s => !(ALLOWED_STEPS.contains s)) ≠ [] :=
      List.ne_nil_of_mem hbad
    rw [validate_pipeline, if_neg hv]
    dsimp only
    rw [if_neg hbne]
    exact ⟨_, rfl⟩
  · intro v out hok
    by_cases hv : v = []
    · subst hv
      rw [validate_pipeline, if_pos rfl] at hok
      have : out = [] := by
        cases hok
        rfl
      subst this
      simp
    · rw [validate_pipeline, if_neg hv] at hok
      dsimp only at hok
      by_cases hb : v.filter (fun s => !(ALLOWED_STEPS.contains s)) = []
      · rw [if_pos hb] at hok
        have hout : out = dedupKeepFirst v [] := by
          cases hok
          rfl
        subst hout
        refine ⟨dedupKeepFirst_nodup v [], dedupKeepFirst_sublist v [], ?_⟩
        intro s
        rw [dedupKeepFirst_mem]
        simp
      · rw [if_neg hb] at hok
        exact absurd hok (by simp)

/-- C8 witness: a pipeline with an unknown step is rejected; the
duplicate example validates as stated. -/
theorem C8_witness :
    (∃ e, validate_pipeline ["thumbnail", "flip"] = Except.error e) ∧
    validate_pipeline ["thumbnail", "watermark", "thumbnail"] =
      Except.ok ["thumbnail", "watermark"] :=
  ⟨C8_validate_pipeline_spec.1 ["thumbnail", "flip"] "flip" (by decide) (by decide),
   C8_validate_pipeline_spec.2.1⟩

/-- C9: the status publisher mutates only the fields an argument was
provided for — id, input reference and pipeline are never touched, and an
omitted status/progress/error/outputs argument leaves that field as it
was; a provided progress value is clamped into [0, 100]; a provided
outputs list is appended to the existing list, never replacing it. -/
theorem C9_update_contract (job : Job) (st : Option Status) (p : Option ℤ)
    (e : Option String) (oa : Option (List Output)) :
    (update job st p e oa).id = job.id ∧
    (update job st p e oa).input_path = job.input_path ∧
    (update job st p e oa).pipeline = job.pipeline ∧
    (st = none → (update job st p e oa).status = job.status) ∧
    (p = none → (update job st p e oa).progress = job.progress) ∧
    (e = none → (update job st p e oa).error = job.error) ∧
    (oa = none → (update job st p e oa).outputs = job.outputs) ∧
    (∀ x, p = some x → (update job st p e oa).progress = max 0 (min 100 x) ∧
      0 ≤ (update job st p e oa).progress ∧ (update job st p e oa).progress ≤ 100) ∧
    (∀ l, oa = some l → (update job st p e oa).outputs = job.outputs ++ l) := by
  refine ⟨update_id job st p e oa, update_input_path job st p e oa,
    update_pipeline job st p e oa, ?_, ?_, ?_, ?_, ?_, ?_⟩
  · intro h; subst h; exact update_status_none job p e oa
  · intro h; subst h; exact update_progress_none job st e oa
  · intro h; subst h; exact update_error_none job st p oa
  · intro h; subst h; exact update_outputs_none job st p e
  · intro x h
    subst h
    have hp := update_progress_some job st x e oa
    exact ⟨hp, by rw [hp]; omega, by rw [hp]; omega⟩
  · intro l h; subst h; exact update_outputs_some job st p e l

/-- C9 witness: an out-of-range progress is clamped, outputs extend the
existing list, and the omitted status stays as it was. -/
theorem C9_witness :
    (update jobW none (some 150) none
      (some [{ type := "watermark", s3_key := "outputs/x_wm.jpg" }])).progress =
        max 0 (min 100 150) ∧
    (update jobW none (some 150) none
      (some [{ type := "watermark", s3_key := "outputs/x_wm.jpg" }])).outputs =
        jobW.outputs ++ [{ type := "watermark", s3_key := "outputs/x_wm.jpg" }] ∧
    (update jobW none (some 150) none
      (some [{ type := "watermark", s3_key := "outputs/x_wm.jpg" }])).status =
        jobW.status := by
  have h := C9_update_contract jobW none (some 150) none
    (some [{ type := "watermark", s3_key := "outputs/x_wm.jpg" }])
  exact ⟨(h.2.2.2.2.2.2.2.1 150 rfl).1,
    h.2.2.2.2.2.2.2.2 [{ type := "watermark", s3_key := "outputs/x_wm.jpg" }] rfl,
    h.2.2.2.1 rfl⟩

/-- C10: each step writes to a storage key that is a function of the input
reference's filename stem and the step only — `outputs/<stem>_thumb.jpg`,
`outputs/<stem>_wm.jpg`, `outputs/<stem>_720p.mp4`,
`outputs/hls/<stem>/index.m3u8`; every descriptor a run persists beyond
the pre-existing ones is such a key; and the job id plays no role: two
jobs differing only in id persist identical outputs, so equal stems mean
equal keys and a re-run overwrites the same locations. -/
theorem C10_output_keys_stem_only :
    (∀ stem, (_step_thumbnail_image stem).s3_key = "outputs/" ++ stem ++ "_thumb.jpg") ∧
    (∀ stem, (_step_watermark_image stem).s3_key = "outputs/" ++ stem ++ "_wm.jpg") ∧
    (∀ stem, (_step_transcode_720p_video stem).s3_key = "outputs/" ++ stem ++ "_720p.mp4") ∧
    (∀ stem, (_step_hls_720p_video stem).s3_key = "outputs/hls/" ++ stem ++ "/index.m3u8") ∧
    (∀ (env : Env) (job0 : Job) (o : Output), o ∈ (process_media env job0).job.outputs →
      o ∈ job0.outputs ∨ ∃ step, step ∈ effPipeline env.kind job0.pipeline ∧
        stepApplicable step env.kind = true ∧ o = stepDescriptor step env.stem) ∧
    (∀ (env : Env) (job0 : Job) (i1 i2 : String),
      (process_media env (setId i1 job0)).job.outputs =
        (process_media env (setId i2 job0)).job.outputs) := by
  refine ⟨fun _ => rfl, fun _ => rfl, fun _ => rfl, fun _ => rfl, ?_, ?_⟩
  · intro env job0 o ho
    rcases hres : env.resolve with msg | pr
    · rw [process_media_resolve_error env job0 msg hres] at ho
      dsimp only at ho
      rw [update_outputs_none] at ho
      exact Or.inl ho
    · by_cases hnil : effPipeline env.kind job0.pipeline = []
      · obtain ⟨hp, hk⟩ := (effPipeline_eq_nil _ _).mp hnil
        rw [process_media_other env job0 pr hres hp hk] at ho
        dsimp only at ho
        rw [update_outputs_none, update_outputs_none] at ho
        exact Or.inl ho
      · rw [process_media_run env job0 pr hres hnil] at ho
        dsimp only at ho
        have hconst := runSteps_outputs_const env
          ((effPipeline env.kind job0.pipeline).length : ℤ)
          (effPipeline env.kind job0.pipeline) 1
          (update job0 (some Status.STARTED) (some 5) none none)
        have hj1 : (update job0 (some Status.STARTED) (some 5) none none).outputs =
            job0.outputs := update_outputs_none _ _ _ _
        rcases herr : (runSteps env ((effPipeline env.kind job0.pipeline).length : ℤ)
            (effPipeline env.kind job0.pipeline) 1
            (update job0 (some Status.STARTED) (some 5) none none)).err with _ | m
        · simp only [runPipeline, herr] at ho
          rw [update_outputs_some, hconst.1, hj1] at ho
          rcases List.mem_append.mp ho with ho | ho
          · exact Or.inl ho
          · obtain ⟨step, hst, h1, h2⟩ := runSteps_outputs_mem env
              ((effPipeline env.kind job0.pipeline).length : ℤ)
              (effPipeline env.kind job0.pipeline) 1
              (update job0 (some Status.STARTED) (some 5) none none) o ho
            exact Or.inr ⟨step, hst, h1, h2⟩
        · simp only [runPipeline, herr] at ho
          rw [update_outputs_none, hconst.1, hj1] at ho
          exact Or.inl ho
  · intro env job0 i1 i2
    rw [process_media_setId env job0 i1, process_media_setId env job0 i2]
    rfl

/-- C10 witness: concrete keys for stem "a", and two scenario-B jobs that
differ only in id persist the same outputs. -/
theorem C10_witness :
    (_step_thumbnail_image "a").s3_key = "outputs/" ++ "a" ++ "_thumb.jpg" ∧
    (_step_hls_720p_video "a").s3_key = "outputs/hls/" ++ "a" ++ "/index.m3u8" ∧
    (process_media envB (setId "job-x" jobB)).job.outputs =
      (process_media envB (setId "job-y" jobB)).job.outputs :=
  ⟨C10_output_keys_stem_only.1 "a", C10_output_keys_stem_only.2.2.2.1 "a",
   C10_output_keys_stem_only.2.2.2.2.2 envB jobB "job-x" "job-y"⟩

end MediaPipeline
